import Mathlib

/-!
A verification development for the ESP32 SRAM-PUF enrollment sketch
(`src/PUF/pufDeri.ino`).  The single `setup()` routine is embedded as a pure
step function over the persisted NVS state: each genuine power cycle folds the
SRAM power-up sample into a per-bit accumulator; after `ENROLL_ROUNDS` rounds a
threshold classifier selects the stable bits and the candidate is hashed with
SHA-256 into the final key.

Modelling conventions:
* bytes and counters are `Nat` values; the `uint8_t` counter increment of the
  accumulation loop wraps modulo 256 exactly as the hardware type does;
* the float comparisons of the classifier (`prob >= 0.85`,
  `prob <= 1.0 - 0.85`) are modelled by exact rational comparisons.  For every
  byte-valued counter `c` (0..255) the IEEE evaluation
  `(double)((float)c / 7.0f)` compared against the double constants `0.85` and
  `1.0 - 0.85` decides exactly as the rational comparison `c/7 ≥ 85/100`
  (resp. `c/7 ≤ 15/100`) does: no quotient `c/7` lies within the rounding
  error of either constant, so the two semantics agree pointwise;
* the NVS key-value store is a record of the three keys the sketch uses
  (`init_done`, `boot_count`, `acc`).  ESP-IDF NVS commits a blob write
  atomically per key, so a `putBytes` call that reports fewer bytes than
  requested leaves the previously stored blob in place; the reported byte
  count of the `acc` write is an input of the step function.
-/

/-- `#define PUF_SIZE 256` (bytes of SRAM sampled). -/
def PUF_SIZE : Nat := 256

/-- `#define ENROLL_ROUNDS 7` (genuine power cycles required). -/
def ENROLL_ROUNDS : Nat := 7

/-- `#define STABILITY_THRESHOLD 0.85`, as an exact rational. -/
def STABILITY_THRESHOLD : ℚ := 85 / 100

/-- `size_t acc_size = PUF_SIZE * 8 * sizeof(uint8_t)` — one byte counter per
sampled bit. -/
def accSize : Nat := PUF_SIZE * 8

/-- Bit `i % 8` of sample byte `i / 8`: the loop body `(val >> bit) & 1` with
`val = puf_ram_block[i / 8]`, `bit = i % 8`. -/
def sampleBit (sample : List Nat) (i : Nat) : Nat :=
  ((sample.getD (i / 8) 0) >>> (i % 8)) &&& 1

/-- The accumulation loop (`pufDeri.ino` lines 92-99): for every bit position
`j = i*8 + bit` of the sample, the byte counter `accumulator[j]` is
incremented when the bit reads 1.  The counter is a `uint8_t`, hence the
increment wraps modulo 256. -/
def accumulate (sample acc : List Nat) : List Nat :=
  (List.range accSize).map fun j =>
    if sampleBit sample j = 1 then (acc.getD j 0 + 1) % 256 else acc.getD j 0

/-- `prob >= STABILITY_THRESHOLD` for `prob = (float)c / (float)ENROLL_ROUNDS`
(`pufDeri.ino` line 128). -/
def bitStableOne (c : Nat) : Bool :=
  decide (STABILITY_THRESHOLD ≤ (c : ℚ) / (ENROLL_ROUNDS : ℚ))

/-- `prob <= (1.0 - STABILITY_THRESHOLD)` (`pufDeri.ino` line 131). -/
def bitStableZero (c : Nat) : Bool :=
  decide ((c : ℚ) / (ENROLL_ROUNDS : ℚ) ≤ 1 - STABILITY_THRESHOLD)

/-- One iteration of the classification loop (`pufDeri.ino` lines 125-134)
on the state `(stable_key_data, stable_bits)`: a stable-one counter sets bit
`i % 8` of byte `i / 8` (`stable_key_data[i/8] |= (1 << (i%8))`) and bumps the
used count; a stable-zero counter only bumps the used count; an unstable
counter changes nothing. -/
def classifyStep (acc : List Nat) (st : List Nat × Nat) (i : Nat) :
    List Nat × Nat :=
  let c := acc.getD i 0
  if bitStableOne c then
    (st.1.set (i / 8) ((st.1.getD (i / 8) 0) ||| (1 <<< (i % 8))), st.2 + 1)
  else if bitStableZero c then
    (st.1, st.2 + 1)
  else st

/-- The classification loop (`pufDeri.ino` lines 121-134): starting from a
zeroed `stable_key_data` buffer of `PUF_SIZE` bytes and `stable_bits = 0`,
fold `classifyStep` over all bit positions.  Returns
`(stable_key_data, stable_bits)`. -/
def classify (acc : List Nat) : List Nat × Nat :=
  (List.range accSize).foldl (classifyStep acc) (List.replicate PUF_SIZE 0, 0)

/-! ### SHA-256 (`computeSHA256`, via mbedTLS, FIPS 180-4)

The sketch hashes the `PUF_SIZE`-byte stable key candidate with SHA-256
(`mbedtls_sha256_starts(ctx, 0)` selects SHA-256 proper).  The whole algorithm
is embedded over `Nat`, words reduced modulo `2^32`. -/

/-- Truncate to a 32-bit word. -/
def w32 (x : Nat) : Nat := x % 4294967296

/-- Rotate a 32-bit word right by `n` (for `0 < n < 32` and `x < 2^32`). -/
def rotr32 (x n : Nat) : Nat := w32 ((x >>> n) ||| (x <<< (32 - n)))

def sha256Ch (x y z : Nat) : Nat := (x &&& y) ^^^ ((x ^^^ 4294967295) &&& z)

def sha256Maj (x y z : Nat) : Nat := (x &&& y) ^^^ (x &&& z) ^^^ (y &&& z)

def bigSigma0 (x : Nat) : Nat := rotr32 x 2 ^^^ rotr32 x 13 ^^^ rotr32 x 22

def bigSigma1 (x : Nat) : Nat := rotr32 x 6 ^^^ rotr32 x 11 ^^^ rotr32 x 25

def smallSigma0 (x : Nat) : Nat := rotr32 x 7 ^^^ rotr32 x 18 ^^^ (x >>> 3)

def smallSigma1 (x : Nat) : Nat := rotr32 x 17 ^^^ rotr32 x 19 ^^^ (x >>> 10)

/-- The 64 SHA-256 round constants. -/
def sha256K : List Nat :=
  [1116352408, 1899447441, 3049323471, 3921009573, 961987163,
   1508970993, 2453635748, 2870763221, 3624381080, 310598401,
   607225278, 1426881987, 1925078388, 2162078206, 2614888103,
   3248222580, 3835390401, 4022224774, 264347078, 604807628,
   770255983, 1249150122, 1555081692, 1996064986, 2554220882,
   2821834349, 2952996808, 3210313671, 3336571891, 3584528711,
   113926993, 338241895, 666307205, 773529912, 1294757372,
   1396182291, 1695183700, 1986661051, 2177026350, 2456956037,
   2730485921, 2820302411, 3259730800, 3345764771, 3516065817,
   3600352804, 4094571909, 275423344, 430227734, 506948616,
   659060556, 883997877, 958139571, 1322822218, 1537002063,
   1747873779, 1955562222, 2024104815, 2227730452, 2361852424,
   2428436474, 2756734187, 3204031479, 3329325298]

/-- The SHA-256 initial hash value. -/
def sha256H0 : List Nat :=
  [1779033703, 3144134277, 1013904242, 2773480762,
   1359893119, 2600822924, 528734635, 1541459225]

/-- Big-endian 4-byte groups to 32-bit words. -/
def bytesToWords : List Nat → List Nat
  | b0 :: b1 :: b2 :: b3 :: rest =>
      (b0 * 16777216 + b1 * 65536 + b2 * 256 + b3) :: bytesToWords rest
  | _ => []

/-- One 32-bit word to 4 big-endian bytes. -/
def wordToBytes (w : Nat) : List Nat :=
  [(w >>> 24) % 256, (w >>> 16) % 256, (w >>> 8) % 256, w % 256]

/-- Split a byte string into 64-byte blocks. -/
def chunk64 (l : List Nat) : List (List Nat) :=
  if h : l = [] then []
  else l.take 64 :: chunk64 (l.drop 64)
termination_by l.length
decreasing_by
  rw [List.length_drop]
  have hp : 0 < l.length := List.length_pos.mpr h
  omega

/-- Extend the 16 message words of a block to the 64-word schedule. -/
def extendWords (w : List Nat) : List Nat :=
  (List.range 48).foldl
    (fun ws _ =>
      let n := ws.length
      ws ++ [w32 (smallSigma1 (ws.getD (n - 2) 0) + ws.getD (n - 7) 0 +
                  smallSigma0 (ws.getD (n - 15) 0) + ws.getD (n - 16) 0)])
    w

/-- One SHA-256 round on the working variables `[a,b,c,d,e,f,g,h]`. -/
def sha256Round (ws : List Nat) (st : List Nat) (t : Nat) : List Nat :=
  match st with
  | [a, b, c, d, e, f, g, h] =>
      let t1 := w32 (h + bigSigma1 e + sha256Ch e f g +
                     sha256K.getD t 0 + ws.getD t 0)
      let t2 := w32 (bigSigma0 a + sha256Maj a b c)
      [w32 (t1 + t2), a, b, c, w32 (d + t1), e, f, g]
  | st => st

/-- Compress one 64-byte block into the hash state. -/
def sha256Compress (h : List Nat) (block : List Nat) : List Nat :=
  let ws := extendWords (bytesToWords block)
  let out := (List.range 64).foldl (sha256Round ws) h
  List.zipWith (fun x y => w32 (x + y)) h out

/-- SHA-256 padding: `0x80`, zeros to 56 mod 64, 8-byte big-endian bit
length. -/
def sha256Pad (msg : List Nat) : List Nat :=
  msg ++ 128 :: List.replicate ((119 - msg.length % 64) % 64) 0 ++
    (List.range 8).map fun i => ((msg.length * 8) >>> ((7 - i) * 8)) % 256

/-- SHA-256 of a byte string, as 32 bytes. -/
def sha256 (msg : List Nat) : List Nat :=
  ((chunk64 (sha256Pad msg)).foldl sha256Compress sha256H0).foldl
    (fun acc w => acc ++ wordToBytes w) []

/-- `pufDeri.ino` lines 121-140: the final key is the SHA-256 digest of the
`PUF_SIZE`-byte stable key candidate classified from the accumulator. -/
def deriveKey (acc : List Nat) : List Nat :=
  sha256 (classify acc).1

/-! ### The persisted enrollment state and the boot step

`setup()` runs once per boot.  Its interaction with the `puf_optimized` NVS
namespace touches exactly three keys, captured by `Storage`.  A boot is a pure
function of the stored state plus four environment inputs: the reset reason,
the SRAM power-up sample, whether the accumulator `malloc` succeeds and the
byte count the `acc` blob write reports. -/

/-- The hardware reset cause (`esp_reset_reason()`), reduced to the cases the
sketch distinguishes: a genuine power-on against everything else. -/
inductive ResetReason
  | poweron
  | softReset
  | other
deriving DecidableEq

/-- The `puf_optimized` NVS namespace: key `init_done` (present once the
first-run branch has executed), key `boot_count`, and the optional `acc` blob
(absent until the first successful save). -/
structure Storage where
  initDone : Bool
  bootCount : Nat
  acc : Option (List Nat)
deriving DecidableEq

/-- The serial messages the sketch prints, with their data. -/
inductive Msg
  | firstRun
  | softResetIgnored
  | trainingStep (step total : Nat)
  | mallocFailed
  | sizeMismatchReset
  | criticalSaveError
  | snapshotSaved
  | trainingComplete
  | stabilityReport (used total : Nat)
  | finalKey (digest : List Nat)
deriving DecidableEq

/-- Outcome of one boot: the NVS state left behind, the messages printed, and
the final key if this boot ran the key-generation branch. -/
structure BootResult where
  store : Storage
  msgs : List Msg
  key : Option (List Nat)
deriving DecidableEq

/-- Lines 50-55: if `init_done` is absent the storage is cleared and the
record re-created with `boot_count = 0`, before anything else. -/
def afterInit (s : Storage) : Storage :=
  if s.initDone then s else { initDone := true, bootCount := 0, acc := none }

/-- The message printed by the first-run branch. -/
def initMsgs (s : Storage) : List Msg :=
  if s.initDone then [] else [Msg.firstRun]

/-- Lines 78-89: for `boot_count > 0` the accumulator is loaded from the
`acc` blob, otherwise the freshly allocated buffer is zeroed. -/
def loadedAcc (s : Storage) : List Nat :=
  if 0 < s.bootCount then s.acc.getD [] else List.replicate accSize 0

/-- Line 119: the key-generation branch reads the `acc` blob into a fresh
buffer with no length check; on reachable states the blob is always present
with the expected size, which is the only case this model gives meaning to. -/
def storedAcc (s : Storage) : List Nat :=
  s.acc.getD (List.replicate accSize 0)

/-- One execution of `setup()` (`pufDeri.ino` lines 33-150) as a function of
the stored state and the boot's environment:
* `reason` — `esp_reset_reason()`;
* `sample` — the `PUF_SIZE` bytes of `puf_ram_block` (the power-up SRAM
  state; the sketch aborts before touching storage if that allocation fails);
* `mallocOk` — whether the accumulator `malloc` (line 73) succeeds;
* `written` — the byte count reported by `prefs.putBytes("acc", ...)`
  (line 102); per NVS blob atomicity the blob is replaced exactly when the
  full `accSize` count is reported. -/
def bootStep (s : Storage) (reason : ResetReason) (sample : List Nat)
    (mallocOk : Bool) (written : Nat) : BootResult :=
  if reason ≠ ResetReason.poweron ∧ (afterInit s).bootCount < ENROLL_ROUNDS then
    { store := afterInit s
      msgs := initMsgs s ++ [Msg.softResetIgnored]
      key := none }
  else if (afterInit s).bootCount < ENROLL_ROUNDS then
    if mallocOk = false then
      { store := afterInit s
        msgs := initMsgs s ++
          [Msg.trainingStep ((afterInit s).bootCount + 1) ENROLL_ROUNDS,
           Msg.mallocFailed]
        key := none }
    else if 0 < (afterInit s).bootCount ∧
        ((afterInit s).acc.getD []).length ≠ accSize then
      { store := { afterInit s with bootCount := 0 }
        msgs := initMsgs s ++
          [Msg.trainingStep ((afterInit s).bootCount + 1) ENROLL_ROUNDS,
           Msg.sizeMismatchReset]
        key := none }
    else if written ≠ accSize then
      { store := afterInit s
        msgs := initMsgs s ++
          [Msg.trainingStep ((afterInit s).bootCount + 1) ENROLL_ROUNDS,
           Msg.criticalSaveError]
        key := none }
    else
      { store := { afterInit s with
                     bootCount := (afterInit s).bootCount + 1,
                     acc := some (accumulate sample (loadedAcc (afterInit s))) }
        msgs := initMsgs s ++
          [Msg.trainingStep ((afterInit s).bootCount + 1) ENROLL_ROUNDS,
           Msg.snapshotSaved]
        key := none }
  else
    { store := afterInit s
      msgs := initMsgs s ++
        [Msg.trainingComplete,
         Msg.stabilityReport (classify (storedAcc (afterInit s))).2 (PUF_SIZE * 8),
         Msg.finalKey (deriveKey (storedAcc (afterInit s)))]
      key := some (deriveKey (storedAcc (afterInit s))) }

/-- The persisted states reachable from a device whose `puf_optimized`
namespace has never been touched (`init_done` absent). -/
inductive Reachable : Storage → Prop
  | start : Reachable { initDone := false, bootCount := 0, acc := none }
  | step (s : Storage) (reason : ResetReason) (sample : List Nat)
      (mallocOk : Bool) (written : Nat) :
      Reachable s → Reachable (bootStep s reason sample mallocOk written).store

/-- The inductive invariant of the persisted state. -/
def StoreInv (s : Storage) : Prop :=
  s.bootCount ≤ ENROLL_ROUNDS ∧
  (s.initDone = false → s.bootCount = 0 ∧ s.acc = none) ∧
  (s.acc = none → s.bootCount = 0) ∧
  ∀ a, s.acc = some a → a.length = accSize ∧ ∀ c ∈ a, c ≤ s.bootCount

/-! ### Helper lemmas -/

lemma getD_map_range (f : Nat → Nat) (n j : Nat) (hj : j < n) :
    ((List.range n).map f).getD j 0 = f j := by
  rw [List.getD_eq_getElem?_getD, List.getElem?_map, List.getElem?_range hj]
  rfl

lemma length_accumulate (sample acc : List Nat) :
    (accumulate sample acc).length = accSize := by
  simp [accumulate]

lemma accumulate_getD (sample acc : List Nat) (j : Nat) (hj : j < accSize) :
    (accumulate sample acc).getD j 0 =
      if sampleBit sample j = 1 then (acc.getD j 0 + 1) % 256
      else acc.getD j 0 := by
  unfold accumulate
  exact getD_map_range _ _ _ hj

lemma getD_le_of_forall_le (acc : List Nat) (B j : Nat)
    (hB : ∀ c ∈ acc, c ≤ B) : acc.getD j 0 ≤ B := by
  by_cases hlt : j < acc.length
  · have he : acc.getD j 0 = acc[j] := by
      rw [List.getD_eq_getElem?_getD, List.getElem?_eq_getElem hlt]
      rfl
    rw [he]
    exact hB _ (List.getElem_mem hlt)
  · rw [List.getD_eq_getElem?_getD, List.getElem?_eq_none (le_of_not_lt hlt)]
    exact Nat.zero_le B

lemma mem_accumulate_le (sample acc : List Nat) (B : Nat)
    (hB : ∀ c ∈ acc, c ≤ B) : ∀ x ∈ accumulate sample acc, x ≤ B + 1 := by
  intro x hx
  unfold accumulate at hx
  obtain ⟨j, hj, rfl⟩ := List.mem_map.mp hx
  have hg : acc.getD j 0 ≤ B := getD_le_of_forall_le acc B j hB
  by_cases hb : sampleBit sample j = 1
  · simp only [hb, if_pos]
    calc (acc.getD j 0 + 1) % 256 ≤ acc.getD j 0 + 1 := Nat.mod_le _ _
      _ ≤ B + 1 := by omega
  · simp only [hb, if_neg, ite_false]
    omega

lemma bitStableOne_iff (c : Nat) : bitStableOne c = true ↔ 6 ≤ c := by
  unfold bitStableOne STABILITY_THRESHOLD ENROLL_ROUNDS
  rw [decide_eq_true_iff]
  rw [div_le_div_iff₀ (by norm_num) (by norm_num)]
  push_cast
  constructor
  · intro h
    have h2 : (595 : ℚ) ≤ (c : ℚ) * 100 := by linarith
    have h3 : (595 : Nat) ≤ c * 100 := by exact_mod_cast h2
    omega
  · intro h
    have h3 : (595 : Nat) ≤ c * 100 := by omega
    have h2 : (595 : ℚ) ≤ (c : ℚ) * 100 := by exact_mod_cast h3
    linarith

lemma bitStableZero_iff (c : Nat) : bitStableZero c = true ↔ c ≤ 1 := by
  unfold bitStableZero STABILITY_THRESHOLD ENROLL_ROUNDS
  rw [decide_eq_true_iff]
  have h15 : (1 : ℚ) - 85 / 100 = 15 / 100 := by norm_num
  rw [h15, div_le_div_iff₀ (by norm_num) (by norm_num)]
  push_cast
  constructor
  · intro h
    have h2 : (c : ℚ) * 100 ≤ 105 := by linarith
    have h3 : c * 100 ≤ (105 : Nat) := by exact_mod_cast h2
    omega
  · intro h
    have h3 : c * 100 ≤ (105 : Nat) := by omega
    have h2 : (c : ℚ) * 100 ≤ 105 := by exact_mod_cast h3
    linarith

lemma afterInit_initDone (s : Storage) : (afterInit s).initDone = true := by
  by_cases h : s.initDone
  · simp [afterInit, h]
  · simp [afterInit, h]

lemma afterInit_of_initDone (s : Storage) (h : s.initDone = true) :
    afterInit s = s := by
  simp [afterInit, h]

lemma afterInit_of_not_initDone (s : Storage) (h : s.initDone = false) :
    afterInit s = { initDone := true, bootCount := 0, acc := none } := by
  simp [afterInit, h]

lemma storeInv_start :
    StoreInv { initDone := false, bootCount := 0, acc := none } :=
  ⟨Nat.zero_le _, fun _ => ⟨rfl, rfl⟩, fun _ => rfl,
   fun _ ha => Option.noConfusion ha⟩

lemma storeInv_afterInit (s : Storage) (h : StoreInv s) :
    StoreInv (afterInit s) := by
  by_cases hb : s.initDone
  · rw [afterInit_of_initDone s hb]
    exact h
  · rw [afterInit_of_not_initDone s (Bool.eq_false_iff.mpr hb)]
    exact ⟨Nat.zero_le _, fun _ => ⟨rfl, rfl⟩, fun _ => rfl,
           fun _ ha => Option.noConfusion ha⟩

lemma loadedAcc_le (t : Storage) (h : StoreInv t) :
    ∀ c ∈ loadedAcc t, c ≤ t.bootCount := by
  unfold loadedAcc
  split
  · cases hacc : t.acc with
    | none => simp [hacc]
    | some a =>
      intro c hc
      simp only [Option.getD_some] at hc
      exact (h.2.2.2 a hacc).2 c hc
  · intro c hc
    rw [List.eq_of_mem_replicate hc]
    exact Nat.zero_le _

lemma no_size_mismatch (t : Storage) (hT : StoreInv t) :
    ¬(0 < t.bootCount ∧ (t.acc.getD []).length ≠ accSize) := by
  rintro ⟨h4a, h4b⟩
  cases hacc : t.acc with
  | none =>
    rw [hT.2.2.1 hacc] at h4a
    exact Nat.lt_irrefl 0 h4a
  | some a =>
    apply h4b
    rw [hacc]
    simp only [Option.getD_some]
    exact (hT.2.2.2 a hacc).1

lemma storeInv_bootStep (s : Storage) (reason : ResetReason)
    (sample : List Nat) (mallocOk : Bool) (written : Nat) (h : StoreInv s) :
    StoreInv (bootStep s reason sample mallocOk written).store := by
  have hT : StoreInv (afterInit s) := storeInv_afterInit s h
  have hD : (afterInit s).initDone = true := afterInit_initDone s
  set t := afterInit s with ht
  unfold bootStep
  rw [← ht]
  split_ifs with h1 h2 h3 h4 h5
  · exact hT
  · exact hT
  · -- accumulator size mismatch: impossible under the invariant
    exact absurd h4 (no_size_mismatch t hT)
  · exact hT
  · -- successful save: counter and accumulator committed together
    refine ⟨h2, ?_, ?_, ?_⟩
    · intro hf
      have hf2 : t.initDone = false := hf
      rw [hD] at hf2
      cases hf2
    · intro hnone
      exact Option.noConfusion hnone
    · intro a ha
      have ha2 : accumulate sample (loadedAcc t) = a := by
        injection ha
      subst ha2
      refine ⟨length_accumulate _ _, ?_⟩
      intro c hc
      exact mem_accumulate_le sample (loadedAcc t) t.bootCount
        (loadedAcc_le t hT) c hc
  · exact hT

lemma reachable_storeInv (s : Storage) (h : Reachable s) : StoreInv s := by
  induction h with
  | start => exact storeInv_start
  | step s reason sample mallocOk written hs ih =>
      exact storeInv_bootStep s reason sample mallocOk written ih

/-! ### The claims -/

/-- C2: for every entropy sample and every previous bit accumulator (whose
counters satisfy the data-model invariant, each in `[0, ENROLL_ROUNDS]`, so
the byte increment cannot wrap), the accumulation engine keeps the length and
maps every counter `j < accSize` to itself plus one exactly when bit `j` of
the sample is 1, leaving it unchanged otherwise. -/
theorem C2_accumulation_updates_each_counter (sample acc : List Nat)
    (hlen : acc.length = accSize) (hbd : ∀ c ∈ acc, c ≤ ENROLL_ROUNDS) :
    (accumulate sample acc).length = acc.length ∧
    ∀ j, j < accSize →
      (accumulate sample acc).getD j 0 =
        if sampleBit sample j = 1 then acc.getD j 0 + 1
        else acc.getD j 0 := by
  constructor
  · rw [length_accumulate, hlen]
  · intro j hj
    rw [accumulate_getD sample acc j hj]
    by_cases hb : sampleBit sample j = 1
    · rw [if_pos hb, if_pos hb]
      have hc : acc.getD j 0 ≤ ENROLL_ROUNDS := getD_le_of_forall_le acc _ j hbd
      have hlt : acc.getD j 0 + 1 < 256 := by
        unfold ENROLL_ROUNDS at hc
        omega
      rw [Nat.mod_eq_of_lt hlt]
    · rw [if_neg hb, if_neg hb]

theorem C2_accumulation_updates_each_counter_witness :
    (accumulate (List.replicate PUF_SIZE 255) (List.replicate accSize 0)).length
      = (List.replicate accSize 0).length :=
  (C2_accumulation_updates_each_counter (List.replicate PUF_SIZE 255)
    (List.replicate accSize 0) (by simp)
    (fun c hc => by rw [List.eq_of_mem_replicate hc]; exact Nat.zero_le _)).1

/-- C3: with `ENROLL_ROUNDS = 7` and `STABILITY_THRESHOLD = 0.85`, the
per-bit classification is inclusive at both boundaries and is exactly
characterised on the integers: a counter is stable-one iff it is at least 6
(frequency `6/7 ≈ 0.857 ≥ 0.85`), stable-zero iff it is at most 1
(frequency `1/7 ≈ 0.143 ≤ 0.15`); consequently one classification-loop step
on a counter of 6 sets the candidate bit and counts it as used, on a counter
of 1 leaves the candidate untouched but counts it as used, and on a counter
of 4 (frequency `4/7 ≈ 0.571`) changes nothing. -/
theorem C3_per_bit_classification :
    (∀ c, bitStableOne c = true ↔ 6 ≤ c) ∧
    (∀ c, bitStableZero c = true ↔ c ≤ 1) ∧
    (∀ acc st i, acc.getD i 0 = 6 →
      classifyStep acc st i =
        (st.1.set (i / 8) ((st.1.getD (i / 8) 0) ||| (1 <<< (i % 8))),
         st.2 + 1)) ∧
    (∀ acc st i, acc.getD i 0 = 1 →
      classifyStep acc st i = (st.1, st.2 + 1)) ∧
    (∀ acc st i, acc.getD i 0 = 4 → classifyStep acc st i = st) := by
  have h6 : bitStableOne 6 = true := (bitStableOne_iff 6).mpr (by omega)
  have h1T : bitStableZero 1 = true := (bitStableZero_iff 1).mpr (by omega)
  have h1F : bitStableOne 1 = false := by
    rw [← Bool.not_eq_true, bitStableOne_iff]
    omega
  have h4F : bitStableOne 4 = false := by
    rw [← Bool.not_eq_true, bitStableOne_iff]
    omega
  have h4F2 : bitStableZero 4 = false := by
    rw [← Bool.not_eq_true, bitStableZero_iff]
    omega
  refine ⟨bitStableOne_iff, bitStableZero_iff, ?_, ?_, ?_⟩
  · intro acc st i hc
    simp only [classifyStep]
    rw [hc, h6]
    rfl
  · intro acc st i hc
    simp only [classifyStep]
    rw [hc, h1F, h1T]
    rfl
  · intro acc st i hc
    simp only [classifyStep]
    rw [hc, h4F, h4F2]
    rfl

theorem C3_per_bit_classification_witness :
    classifyStep [6] (([] : List Nat), 0) 0 =
      (List.set [] (0 / 8) ((List.getD [] (0 / 8) 0) ||| (1 <<< (0 % 8))),
       0 + 1) :=
  C3_per_bit_classification.2.2.1 [6] (([] : List Nat), 0) 0 rfl

lemma accumulate_comm (x y acc : List Nat) :
    accumulate y (accumulate x acc) = accumulate x (accumulate y acc) := by
  unfold accumulate
  apply List.map_congr_left
  intro j hj
  have hjlt : j < accSize := List.mem_range.mp hj
  simp only [getD_map_range _ _ _ hjlt]
  by_cases hx : sampleBit x j = 1 <;> by_cases hy : sampleBit y j = 1 <;>
    simp [hx, hy]

lemma foldl_accumulate_perm (S T : List (List Nat)) (h : S.Perm T)
    (acc : List Nat) :
    S.foldl (fun a smp => accumulate smp a) acc =
    T.foldl (fun a smp => accumulate smp a) acc := by
  induction h generalizing acc with
  | nil => rfl
  | cons x hxy ih =>
      simp only [List.foldl_cons]
      exact ih _
  | swap x y l =>
      simp only [List.foldl_cons]
      rw [accumulate_comm]
  | trans h1 h2 ih1 ih2 =>
      rw [ih1, ih2]

/-- C9: the accumulation fold is order-independent — swapping two samples
yields the same accumulator, and more generally any permutation of a list of
samples folds to the same final accumulator. -/
theorem C9_accumulation_order_independent (acc A B : List Nat) :
    accumulate B (accumulate A acc) = accumulate A (accumulate B acc) ∧
    ∀ S T : List (List Nat), S.Perm T →
      S.foldl (fun a smp => accumulate smp a) acc =
      T.foldl (fun a smp => accumulate smp a) acc :=
  ⟨accumulate_comm A B acc, fun S T h => foldl_accumulate_perm S T h acc⟩

theorem C9_accumulation_order_independent_witness :
    [[0], [1]].foldl (fun a smp => accumulate smp a) [] =
    [[1], [0]].foldl (fun a smp => accumulate smp a) [] :=
  (C9_accumulation_order_independent [] [0] [1]).2 [[0], [1]] [[1], [0]]
    (List.Perm.swap [1] [0] [])

/-- C1: once `boot_count` has reached `ENROLL_ROUNDS`, a boot runs only the
key-generation branch: for a stored accumulator of the expected size it
emits `deriveKey` of exactly that accumulator, writes nothing back to
storage, and two boots from the same state — with any reset causes, samples,
allocation outcomes and write reports — emit byte-identical final keys: the
final key is a function of the accumulator alone. -/
theorem C1_key_derivation_deterministic (s : Storage) (a : List Nat)
    (r1 r2 : ResetReason) (sample1 sample2 : List Nat) (mo1 mo2 : Bool)
    (w1 w2 : Nat) (hInit : s.initDone = true) (hacc : s.acc = some a)
    (hlen : a.length = accSize) (hbc : ENROLL_ROUNDS ≤ s.bootCount) :
    (bootStep s r1 sample1 mo1 w1).key = some (deriveKey a) ∧
    (bootStep s r1 sample1 mo1 w1).store = s ∧
    (bootStep s r2 sample2 mo2 w2).key = (bootStep s r1 sample1 mo1 w1).key := by
  have hgen : ∀ (r : ResetReason) (sm : List Nat) (mo : Bool) (w : Nat),
      bootStep s r sm mo w =
        { store := s
          msgs := [Msg.trainingComplete,
                   Msg.stabilityReport (classify a).2 (PUF_SIZE * 8),
                   Msg.finalKey (deriveKey a)]
          key := some (deriveKey a) } := by
    intro r sm mo w
    have hA : afterInit s = s := afterInit_of_initDone s hInit
    have hnlt : ¬ s.bootCount < ENROLL_ROUNDS := Nat.not_lt.mpr hbc
    have hSA : storedAcc s = a := by
      unfold storedAcc
      rw [hacc]
      rfl
    unfold bootStep
    rw [hA, if_neg (fun hco => hnlt hco.2), if_neg hnlt, hSA]
    simp [initMsgs, hInit]
  refine ⟨?_, ?_, ?_⟩
  · rw [hgen r1 sample1 mo1 w1]
  · rw [hgen r1 sample1 mo1 w1]
  · rw [hgen r1 sample1 mo1 w1, hgen r2 sample2 mo2 w2]

theorem C1_key_derivation_deterministic_witness :
    (bootStep
        { initDone := true, bootCount := ENROLL_ROUNDS,
          acc := some (List.replicate accSize 0) }
        ResetReason.softReset [] true 0).key =
      some (deriveKey (List.replicate accSize 0)) :=
  (C1_key_derivation_deterministic
    { initDone := true, bootCount := ENROLL_ROUNDS,
      acc := some (List.replicate accSize 0) }
    (List.replicate accSize 0) ResetReason.softReset ResetReason.poweron
    [] [] true true 0 0 rfl rfl (by simp) (le_refl _)).1

/-- C5: a non-genuine reset while enrollment is incomplete short-circuits
the boot: the stored record is returned untouched (no storage write), the
operator is prompted to perform a real power cycle, and no key is emitted. -/
theorem C5_soft_reset_is_noop (s : Storage) (r : ResetReason)
    (sample : List Nat) (mo : Bool) (w : Nat) (hInit : s.initDone = true)
    (hr : r ≠ ResetReason.poweron) (hbc : s.bootCount < ENROLL_ROUNDS) :
    (bootStep s r sample mo w).store = s ∧
    Msg.softResetIgnored ∈ (bootStep s r sample mo w).msgs ∧
    (bootStep s r sample mo w).key = none := by
  have hA : afterInit s = s := afterInit_of_initDone s hInit
  unfold bootStep
  rw [hA, if_pos ⟨hr, hbc⟩]
  refine ⟨rfl, ?_, rfl⟩
  simp [initMsgs, hInit]

theorem C5_soft_reset_is_noop_witness :
    (bootStep
        { initDone := true, bootCount := 3,
          acc := some (List.replicate accSize 1) }
        ResetReason.softReset [] true 0).store =
      { initDone := true, bootCount := 3,
        acc := some (List.replicate accSize 1) } :=
  (C5_soft_reset_is_noop
    { initDone := true, bootCount := 3,
      acc := some (List.replicate accSize 1) }
    ResetReason.softReset [] true 0 rfl (by decide) (by decide)).1

/-- C4: on an enrollment boot whose accumulator write reports fewer bytes
than `accSize`, the stored record is left exactly as it was — in particular
`boot_count` is not advanced — and the critical storage error is reported. -/
theorem C4_partial_write_does_not_advance (s : Storage) (r : ResetReason)
    (sample : List Nat) (written : Nat) (hInit : s.initDone = true)
    (hr : r = ResetReason.poweron) (hbc : s.bootCount < ENROLL_ROUNDS)
    (hload : ¬(0 < s.bootCount ∧ (s.acc.getD []).length ≠ accSize))
    (hw : written < accSize) :
    (bootStep s r sample true written).store = s ∧
    Msg.criticalSaveError ∈ (bootStep s r sample true written).msgs := by
  have hA : afterInit s = s := afterInit_of_initDone s hInit
  unfold bootStep
  rw [hA, if_neg (fun hco => hco.1 hr), if_pos hbc,
      if_neg (by decide : ¬((true : Bool) = false)), if_neg hload,
      if_pos (Nat.ne_of_lt hw)]
  refine ⟨rfl, ?_⟩
  simp [initMsgs, hInit]

theorem C4_partial_write_does_not_advance_witness :
    (bootStep { initDone := true, bootCount := 0, acc := none }
        ResetReason.poweron [] true 0).store =
      { initDone := true, bootCount := 0, acc := none } :=
  (C4_partial_write_does_not_advance
    { initDone := true, bootCount := 0, acc := none }
    ResetReason.poweron [] 0 rfl rfl (by decide) (by decide) (by decide)).1

/-- C6: on an enrollment boot with `boot_count > 0` whose stored accumulator
length differs from the expected size, the boot resets the persisted
`boot_count` to 0 while leaving the stored accumulator blob as it is (no
partial repair), performs no accumulation (the sample is discarded, nothing
else is written), reports the storage error, and emits no key. -/
theorem C6_size_mismatch_resets (s : Storage) (sample : List Nat) (w : Nat)
    (hInit : s.initDone = true) (hbc0 : 0 < s.bootCount)
    (hbc : s.bootCount < ENROLL_ROUNDS)
    (hlen : (s.acc.getD []).length ≠ accSize) :
    (bootStep s ResetReason.poweron sample true w).store =
      { s with bootCount := 0 } ∧
    Msg.sizeMismatchReset ∈ (bootStep s ResetReason.poweron sample true w).msgs ∧
    (bootStep s ResetReason.poweron sample true w).key = none := by
  have hA : afterInit s = s := afterInit_of_initDone s hInit
  unfold bootStep
  rw [hA, if_neg (fun hco => hco.1 rfl), if_pos hbc,
      if_neg (by decide : ¬((true : Bool) = false)), if_pos ⟨hbc0, hlen⟩]
  refine ⟨rfl, ?_, rfl⟩
  simp [initMsgs, hInit]

theorem C6_size_mismatch_resets_witness :
    (bootStep { initDone := true, bootCount := 3, acc := none }
        ResetReason.poweron [] true 0).store =
      { ({ initDone := true, bootCount := 3, acc := none } : Storage) with
          bootCount := 0 } :=
  (C6_size_mismatch_resets
    { initDone := true, bootCount := 3, acc := none }
    [] 0 rfl (by decide) (by decide) (by decide)).1

/-- C10: on a first-ever boot (`init_done` absent) the record is created —
storage cleared, flag set, `boot_count = 0` — before the reset-cause gate,
hence for every reset cause the resulting store has the flag set and the
first-run message is printed; a non-genuine reset still leaves the freshly
created record persisted. -/
theorem C10_first_boot_creates_record (s : Storage) (r : ResetReason)
    (sample : List Nat) (mo : Bool) (w : Nat) (h : s.initDone = false) :
    afterInit s = { initDone := true, bootCount := 0, acc := none } ∧
    (bootStep s r sample mo w).store.initDone = true ∧
    Msg.firstRun ∈ (bootStep s r sample mo w).msgs ∧
    (r ≠ ResetReason.poweron →
      (bootStep s r sample mo w).store =
        { initDone := true, bootCount := 0, acc := none }) := by
  have hA : afterInit s = { initDone := true, bootCount := 0, acc := none } :=
    afterInit_of_not_initDone s h
  have hM : initMsgs s = [Msg.firstRun] := by simp [initMsgs, h]
  refine ⟨hA, ?_, ?_, ?_⟩
  · unfold bootStep
    rw [hA, hM]
    split_ifs <;> rfl
  · unfold bootStep
    rw [hA, hM]
    split_ifs <;> simp
  · intro hr
    unfold bootStep
    rw [hA, hM, if_pos ⟨hr, by decide⟩]

/-- C7: on every reachable persisted state, every counter of a stored
accumulator is at most `ENROLL_ROUNDS` (counters are naturals, so they lie
in `[0, ENROLL_ROUNDS]`). -/
theorem C7_accumulator_counters_bounded (s : Storage) (hs : Reachable s)
    (a : List Nat) (ha : s.acc = some a) (c : Nat) (hc : c ∈ a) :
    c ≤ ENROLL_ROUNDS := by
  have hI := reachable_storeInv s hs
  exact le_trans ((hI.2.2.2 a ha).2 c hc) hI.1

set_option maxRecDepth 100000 in
theorem C7_accumulator_counters_bounded_witness : (0 : Nat) ≤ ENROLL_ROUNDS :=
  C7_accumulator_counters_bounded
    (bootStep { initDone := false, bootCount := 0, acc := none }
        ResetReason.poweron (List.replicate PUF_SIZE 0) true accSize).store
    (Reachable.step _ _ _ _ _ Reachable.start)
    (accumulate (List.replicate PUF_SIZE 0) (List.replicate accSize 0))
    rfl 0 (by decide)

/-- C8: from every reachable state, a boot never decreases the persisted
`boot_count`, and whenever the `boot_count` changes it increases by exactly
one, the write of the accumulator was reported complete (`written =
accSize`), and the new accumulator — the fold of this boot's sample into the
loaded one — was committed in the same boot. -/
theorem C8_round_count_monotone (s : Storage) (hs : Reachable s)
    (r : ResetReason) (sample : List Nat) (mo : Bool) (w : Nat) :
    s.bootCount ≤ (bootStep s r sample mo w).store.bootCount ∧
    ((bootStep s r sample mo w).store.bootCount ≠ s.bootCount →
      w = accSize ∧
      (bootStep s r sample mo w).store.bootCount = s.bootCount + 1 ∧
      (bootStep s r sample mo w).store.acc =
        some (accumulate sample (loadedAcc s))) := by
  have hI := reachable_storeInv s hs
  have hT : StoreInv (afterInit s) := storeInv_afterInit s hI
  have hbc_eq : (afterInit s).bootCount = s.bootCount := by
    by_cases hb : s.initDone
    · rw [afterInit_of_initDone s hb]
    · rw [afterInit_of_not_initDone s (Bool.eq_false_iff.mpr hb)]
      exact ((hI.2.1 (Bool.eq_false_iff.mpr hb)).1).symm
  have hload_eq : loadedAcc (afterInit s) = loadedAcc s := by
    by_cases hb : s.initDone
    · rw [afterInit_of_initDone s hb]
    · have hb2 := Bool.eq_false_iff.mpr hb
      rw [afterInit_of_not_initDone s hb2]
      obtain ⟨h0, hnone⟩ := hI.2.1 hb2
      unfold loadedAcc
      rw [h0, hnone]
  set t := afterInit s with ht
  unfold bootStep
  rw [← ht]
  split_ifs with h1 h2 h3 h4 h5
  · exact ⟨Nat.le_of_eq hbc_eq.symm, fun hne => absurd hbc_eq hne⟩
  · exact ⟨Nat.le_of_eq hbc_eq.symm, fun hne => absurd hbc_eq hne⟩
  · exact absurd h4 (no_size_mismatch t hT)
  · exact ⟨Nat.le_of_eq hbc_eq.symm, fun hne => absurd hbc_eq hne⟩
  · -- the successful-save branch: the only branch that changes boot_count
    constructor
    · show s.bootCount ≤ t.bootCount + 1
      rw [hbc_eq]
      exact Nat.le_succ _
    · intro _
      refine ⟨not_not.mp h5, ?_, ?_⟩
      · show t.bootCount + 1 = s.bootCount + 1
        rw [hbc_eq]
      · show some (accumulate sample (loadedAcc t)) =
          some (accumulate sample (loadedAcc s))
        rw [hload_eq]
  · exact ⟨Nat.le_of_eq hbc_eq.symm, fun hne => absurd hbc_eq hne⟩

theorem C8_round_count_monotone_witness :
    ({ initDone := false, bootCount := 0, acc := none } : Storage).bootCount ≤
      (bootStep { initDone := false, bootCount := 0, acc := none }
          ResetReason.poweron [] true 0).store.bootCount :=
  (C8_round_count_monotone
    { initDone := false, bootCount := 0, acc := none }
    Reachable.start ResetReason.poweron [] true 0).1

theorem C10_first_boot_creates_record_witness :
    (bootStep { initDone := false, bootCount := 0, acc := none }
        ResetReason.softReset [] true 0).store =
      { initDone := true, bootCount := 0, acc := none } :=
  (C10_first_boot_creates_record
    { initDone := false, bootCount := 0, acc := none }
    ResetReason.softReset [] true 0 rfl).2.2.2 (by decide)
